import Mathlib

/-!
Shallow embedding of `GraphCore.cpp` / `GraphCore.hpp` (class `GrafoDisperso`):
CSR construction from a text edge list, the binary sidecar cache, and the two
queries (critical node, bounded BFS).

Modelling conventions:
* C++ `int` is modelled as `Int` (no claim here exercises 32-bit overflow).
* `std::vector<int>` is a `List Int`; an access at an out-of-range index
  (including every negative index) is undefined behaviour in the C++ and is
  modelled by `Option.none`; likewise a `resize` with a negative size.
* A file is modelled by its content: the text file as a `String`, the binary
  cache at `int` granularity as a `List Int` (all claims are int-granular).
* The member functions of `GrafoDisperso` take the object state `Grafo`
  explicitly; the query members, which contain no field assignment, are also
  wrapped in state-passing form (`bfsMet`, ...) for the frame claims.
-/

/-- Field state of a `GrafoDisperso` object: `num_nodos`, `num_aristas` and
the two CSR vectors `row_ptr`, `col_indices`. -/
structure Grafo where
  num_nodos : Int
  num_aristas : Int
  row_ptr : List Int
  col_indices : List Int
deriving DecidableEq, Repr

/-- Freshly constructed object: `GrafoDisperso()` sets both counters to 0 and
leaves both vectors empty. -/
def grafoVacio : Grafo := ⟨0, 0, [], []⟩

/-- Checked read `l[i]` of a `std::vector<int>` at an `int` index: an index
outside `[0, size)` is undefined behaviour, modelled as `none`. -/
def getI (l : List Int) (i : Int) : Option Int :=
  if i < 0 then none else l[i.toNat]?

/-- Checked write `l[i] = x`: out of range is undefined behaviour (`none`). -/
def setI (l : List Int) (i : Int) (x : Int) : Option (List Int) :=
  if 0 ≤ i ∧ i.toNat < l.length then some (l.set i.toNat x) else none

/-- Model of `std::vector<int>::resize n`: the first `n` existing elements are
kept and any newly created slots are value-initialised to 0. -/
def resizeL (l : List Int) (n : Nat) : List Int :=
  l.take n ++ List.replicate (n - l.length) 0

/-! ### Text reader (`cargarDatos`, parsing part)

The C++ skips leading whitespace and discards lines whose first
non-whitespace character is `#`, then repeatedly extracts two ints with
`file >> u >> v`; extraction skips whitespace, accepts an optional sign and
requires at least one digit, and the pair loop stops at the first failed
extraction (end of file, stray token, or incomplete trailing pair). -/

/-- Whitespace in the sense of `operator>>` (the inputs at stake use only
these characters). -/
def esEspacio (c : Char) : Bool :=
  c = ' ' || c = '\t' || c = '\n' || c = '\r'

/-- Drop leading whitespace characters. -/
def saltarEspacios : List Char → List Char
  | [] => []
  | c :: cs => if esEspacio c then saltarEspacios cs else c :: cs

/-- Drop up to and including the next newline (`std::getline` consumes it). -/
def saltarLinea : List Char → List Char
  | [] => []
  | c :: cs => if c = '\n' then cs else saltarLinea cs

/-- The comment-skipping loop
`while (file >> std::ws && file.peek() == '#') std::getline(file, line);`.
The fuel only serves termination; `fuel = cs.length` always suffices since
each discarded comment line consumes at least its `#`. -/
def saltarComentarios : Nat → List Char → List Char
  | 0, cs => cs
  | fuel + 1, cs =>
    match saltarEspacios cs with
    | '#' :: rest => saltarComentarios fuel (saltarLinea rest)
    | cs' => cs'

/-- Digit run of an `int` extraction, most significant first, accumulating
into `acc`. -/
def leerDigitos : List Char → Nat → Nat × List Char
  | [], acc => (acc, [])
  | c :: cs, acc =>
    if c.isDigit then leerDigitos cs (acc * 10 + (c.toNat - '0'.toNat))
    else (acc, c :: cs)

/-- One `file >> u` extraction of an `int`: skip whitespace, optional sign,
then at least one digit; `none` when extraction fails. -/
def leerEntero (cs : List Char) : Option (Int × List Char) :=
  match saltarEspacios cs with
  | '-' :: c :: rest =>
    if c.isDigit then
      let (n, rest') := leerDigitos rest (c.toNat - '0'.toNat)
      some (-(n : Int), rest')
    else none
  | '+' :: c :: rest =>
    if c.isDigit then
      let (n, rest') := leerDigitos rest (c.toNat - '0'.toNat)
      some ((n : Int), rest')
    else none
  | c :: rest =>
    if c.isDigit then
      let (n, rest') := leerDigitos rest (c.toNat - '0'.toNat)
      some ((n : Int), rest')
    else none
  | [] => none

/-- The pair loop `while (file >> u >> v)`: yields pairs until an extraction
fails. Fuel only serves termination (`cs.length + 1` suffices: each pair
consumes at least one character). -/
def leerPares : Nat → List Char → List (Int × Int)
  | 0, _ => []
  | fuel + 1, cs =>
    match leerEntero cs with
    | none => []
    | some (u, cs1) =>
      match leerEntero cs1 with
      | none => []
      | some (v, cs2) => (u, v) :: leerPares fuel cs2

/-- Edge stream the three passes of `cargarDatos` consume: the file content
after the leading comment block, tokenised into `(u, v)` pairs. All three
passes re-read the same bytes from the saved `data-start` position, hence
see this same list. -/
def analizarAristas (s : String) : List (Int × Int) :=
  let cs := saltarComentarios s.length s.data
  leerPares (cs.length + 1) cs

/-! ### CSR builder (`cargarDatos`, three passes) -/

/-- Pass 1 max tracking: `max_id` starts at 0 and is raised by
`if (u > max_id) ...; if (v > max_id) ...` per pair. -/
def maxId (edges : List (Int × Int)) : Int :=
  edges.foldl (fun m p => max (max m p.1) p.2) 0

/-- Pass 2, `while (file >> u >> v) counts[u]++;`. A negative (or otherwise
out-of-range) `u` indexes outside the vector: `none`. -/
def histograma : List (Int × Int) → List Int → Option (List Int)
  | [], counts => some counts
  | p :: rest, counts => do
    let c ← getI counts p.1
    let counts' ← setI counts p.1 (c + 1)
    histograma rest counts'

/-- The prefix-sum loop `row_ptr[0] = 0; row_ptr[i+1] = row_ptr[i] + counts[i]`
written as a scan; it writes every slot of the previously zero-assigned
`row_ptr`, so the result is exactly this scan. -/
def sumaPrefija : Int → List Int → List Int
  | acc, [] => [acc]
  | acc, c :: rest => acc :: sumaPrefija (acc + c) rest

/-- Pass 3, `col_indices[current[u]] = v; current[u]++;` over the cursor copy
of `row_ptr`. Returns the final cursors and the filled `col_indices`. -/
def dispersar : List (Int × Int) → List Int → List Int → Option (List Int × List Int)
  | [], cur, col => some (cur, col)
  | p :: rest, cur, col => do
    let c ← getI cur p.1
    let col' ← setI col c p.2
    let cur' ← setI cur p.1 (c + 1)
    dispersar rest cur' col'

/-- Text branch of `cargarDatos`, starting from the current field state `g`
(the fields are NOT reset first: pass 1 increments the existing `num_aristas`
and `col_indices.resize` keeps existing elements). -/
def cargarDatosTexto (text : String) (g : Grafo) : Option Grafo := do
  let edges := analizarAristas text
  let num_aristas := g.num_aristas + edges.length
  let num_nodos := maxId edges + 1
  -- col_indices.resize(num_aristas): a negative int size is UB
  if num_aristas < 0 then none else
  let col0 := resizeL g.col_indices num_aristas.toNat
  -- row_ptr.assign(num_nodos + 1, 0) is wholly overwritten by the scan below
  let counts ← histograma edges (List.replicate num_nodos.toNat 0)
  let row_ptr := sumaPrefija 0 counts
  let (_, col) ← dispersar edges row_ptr col0
  some ⟨num_nodos, num_aristas, row_ptr, col⟩

/-! ### Binary cache codec -/

/-- Serialised cache `guardarCache` writes: `num_nodos`, `num_aristas`, then
the raw `row_ptr` and `col_indices` blocks. -/
def guardarCache (g : Grafo) : List Int :=
  g.num_nodos :: g.num_aristas :: (g.row_ptr ++ g.col_indices)

/-- Stream state of the cache reader: remaining ints and the good/fail flag.
An `in.read` on an already failed stream is a no-op that leaves the
destination unchanged. -/
def leerEnteroCache : List Int × Bool → Int → Int × (List Int × Bool)
  | (x :: rest, true), _ => (x, (rest, true))
  | (data, _), old => (old, (data, false))

/-- Block read of `dst.length` ints into `dst`: a short read fills only a
prefix (the resized tail keeps its prior content) and sets the fail flag. -/
def leerBloqueCache : List Int × Bool → List Int → List Int × (List Int × Bool)
  | (data, true), dst =>
    if dst.length ≤ data.length then
      (data.take dst.length, (data.drop dst.length, true))
    else
      (data ++ dst.drop data.length, ([], false))
  | (data, false), dst => (dst, (data, false))

/-- Method `cargarDesdeCache`: reads the two counters, resizes both vectors to
the sizes just read, bulk-reads both blocks, and reports `in.good()`. The
fields are mutated even when the read fails. A resize with a negative size
is UB (`none`). -/
def cargarDesdeCache (cache : List Int) (g : Grafo) : Option (Bool × Grafo) :=
  let (n, st1) := leerEnteroCache (cache, true) g.num_nodos
  let (e, st2) := leerEnteroCache st1 g.num_aristas
  if n + 1 < 0 ∨ e < 0 then none
  else
    let (rp, st3) := leerBloqueCache st2 (resizeL g.row_ptr (n + 1).toNat)
    let (col, st4) := leerBloqueCache st3 (resizeL g.col_indices e.toNat)
    some (st4.2, ⟨n, e, rp, col⟩)

/-- Method `cargarDatos` on a fresh object: `cache` is the content of
`filename + ".bin"` when that file exists, `text` the content of `filename`.
Returns the final field state together with the cache content written by
`guardarCache` (only the text branch writes one). -/
def cargarDatos (cache : Option (List Int)) (text : String) :
    Option (Grafo × Option (List Int)) :=
  match cache with
  | some c =>
    match cargarDesdeCache c grafoVacio with
    | none => none
    | some (true, g) => some (g, none)
    | some (false, g1) =>
      match cargarDatosTexto text g1 with
      | none => none
      | some g2 => some (g2, some (guardarCache g2))
  | none =>
    match cargarDatosTexto text grafoVacio with
    | none => none
    | some g2 => some (g2, some (guardarCache g2))

/-! ### Queries -/

/-- Loop of `obtenerNodoCritico`: `k` iterations remain, `i` is the loop
index, `max_d`/`mejor` the best degree and its vertex so far. -/
def criticoLoop (g : Grafo) : Nat → Int → Int → Int → Option Int
  | 0, _, _, mejor => some mejor
  | k + 1, i, max_d, mejor => do
    let a ← getI g.row_ptr i
    let b ← getI g.row_ptr (i + 1)
    if b - a > max_d then criticoLoop g k (i + 1) (b - a) i
    else criticoLoop g k (i + 1) max_d mejor

/-- Method `obtenerNodoCritico`: scans degrees `row_ptr[i+1] - row_ptr[i]`
for `i = 0 .. num_nodos - 1` starting from `max_d = -1`, `id = -1`. -/
def obtenerNodoCritico (g : Grafo) : Option Int :=
  criticoLoop g g.num_nodos.toNat 0 (-1) (-1)

/-- Inner loop of `bfs` over the neighbour slice of `u`: `k` slice positions
remain, `i` is the index into `col_indices`, `lu` the value `vis[u]` read at
dequeue. Each examined edge is appended unconditionally; an unvisited target
is marked `vis[u] + 1` and enqueued. -/
def bfsInterior (g : Grafo) (u lu : Int) :
    Nat → Int → List Int → List Int → List (Int × Int) →
    Option (List Int × List Int × List (Int × Int))
  | 0, _, q, vis, res => some (q, vis, res)
  | k + 1, i, q, vis, res => do
    let v ← getI g.col_indices i
    let res' := res ++ [(u, v)]
    let lv ← getI vis v
    if lv = -1 then do
      let vis' ← setI vis v (lu + 1)
      bfsInterior g u lu k (i + 1) (q ++ [v]) vis' res'
    else
      bfsInterior g u lu k (i + 1) q vis res'

/-- Outer loop of `bfs` over the FIFO queue. The fuel only bounds the number
of dequeues; since every vertex is enqueued at most once (a target is only
enqueued while `vis[v] == -1`, which the enqueue clears), `num_nodos + 1`
dequeues always suffice, so the `none` at exhausted fuel with a non-empty
queue is unreachable from `bfs`. -/
def bfsCiclo (g : Grafo) (depth : Int) :
    Nat → List Int → List Int → List (Int × Int) → Option (List (Int × Int))
  | 0, q, _, res => if q.isEmpty then some res else none
  | _ + 1, [], _, res => some res
  | fuel + 1, u :: q, vis, res => do
    let lu ← getI vis u
    if lu ≥ depth then bfsCiclo g depth fuel q vis res
    else do
      let r1 ← getI g.row_ptr u
      let r2 ← getI g.row_ptr (u + 1)
      let t ← bfsInterior g u lu (r2 - r1).toNat r1 q vis res
      bfsCiclo g depth fuel t.1 t.2.1 t.2.2

/-- Method `bfs(startNode, depth)`: early empty result when
`startNode >= num_nodos` (note: only the upper bound is checked), otherwise
`vis` is allocated to `-1`, `vis[startNode] = 0` (an out-of-range write for a
negative `startNode` — UB, hence `none`), and the queue loop runs. -/
def bfs (g : Grafo) (startNode depth : Int) : Option (List (Int × Int)) :=
  if startNode ≥ g.num_nodos then some []
  else do
    let vis1 ← setI (List.replicate g.num_nodos.toNat (-1)) startNode 0
    bfsCiclo g depth (g.num_nodos.toNat + 1) [startNode] vis1 []

/-! ### Query methods in state-passing form

The bodies of `obtenerNodoCritico`, `bfs`, `getNumNodos` and `getNumAristas`
contain no assignment to any field of the object, so their state-passing
embeddings return the incoming state. -/

/-- State-passing `bfs`: result paired with the object state after the call. -/
def bfsMet (startNode depth : Int) (g : Grafo) :
    Option (List (Int × Int)) × Grafo :=
  (bfs g startNode depth, g)

/-- State-passing `obtenerNodoCritico`. -/
def obtenerNodoCriticoMet (g : Grafo) : Option Int × Grafo :=
  (obtenerNodoCritico g, g)

/-- State-passing `getNumNodos`. -/
def getNumNodos (g : Grafo) : Int × Grafo := (g.num_nodos, g)

/-- State-passing `getNumAristas`. -/
def getNumAristas (g : Grafo) : Int × Grafo := (g.num_aristas, g)

/-! ### CSR invariants of the specification (claim C3) -/

/-- Executable non-decreasing check on a list of ints. -/
def noDecreciente : List Int → Bool
  | [] => true
  | [_] => true
  | a :: b :: rest => a ≤ b && noDecreciente (b :: rest)

/-- CSR invariants of spec §3 / §8 as quantified in claim C3: `row_ptr` has
length `num_nodes + 1`, is non-decreasing, starts at 0 and ends at
`num_edges`, and every column index lies in `[0, num_nodes)`. -/
def invariantes (g : Grafo) : Prop :=
  (g.row_ptr.length : Int) = g.num_nodos + 1 ∧
  List.Chain' (· ≤ ·) g.row_ptr ∧
  g.row_ptr.head? = some 0 ∧
  g.row_ptr.getLast? = some g.num_aristas ∧
  ∀ v ∈ g.col_indices, 0 ≤ v ∧ v < g.num_nodos

instance (g : Grafo) : Decidable (invariantes g) :=
  decidable_of_iff ((g.row_ptr.length : Int) = g.num_nodos + 1 ∧
    noDecreciente g.row_ptr = true ∧
    g.row_ptr.head? = some 0 ∧
    g.row_ptr.getLast? = some g.num_aristas ∧
    ∀ v ∈ g.col_indices, 0 ≤ v ∧ v < g.num_nodos)
    (by
      have hnd : ∀ l : List Int, noDecreciente l = true ↔ List.Chain' (· ≤ ·) l := by
        intro l
        induction l with
        | nil => simp [noDecreciente]
        | cons a t ih =>
          cases t with
          | nil => simp [noDecreciente]
          | cons b r =>
            rw [noDecreciente, List.chain'_cons, Bool.and_eq_true,
              decide_eq_true_eq, ih]
      rw [hnd]
      rfl)

/-- Out-degree of vertex `u` as the C++ reads it:
`row_ptr[u+1] - row_ptr[u]`, with the two checked accesses. -/
def grado (g : Grafo) (u : Int) : Option Int := do
  let a ← getI g.row_ptr u
  let b ← getI g.row_ptr (u + 1)
  some (b - a)

/-- Total (default-0) form of the out-degree at a `Nat` index, used to state
loop invariants; agrees with `grado` on every in-range vertex. -/
def gradoD (g : Grafo) (u : Nat) : Int :=
  g.row_ptr.getD (u + 1) 0 - g.row_ptr.getD u 0

/-- Sum of out-degrees of the queued vertices. -/
def sumaGrados (g : Grafo) (q : List Int) : Int :=
  (q.map (fun u => gradoD g u.toNat)).sum

/-- Sum of out-degrees of the vertices still marked unvisited in `vis`. -/
def sumaNoVisitados (g : Grafo) (vis : List Int) : Int :=
  ∑ j in (Finset.range vis.length).filter (fun j => vis.getD j 0 = -1),
    gradoD g j

/-! ### Claim C1 -/

/-- C1, counterexample: loading a comments-only text file (no cache) does NOT
leave `num_nodes == 0`, `row_ptr == [0]` and `critical_node == -1` as the
claim states; pass 1 initialises `max_id = 0`, so the load produces
`num_nodes == 1`, `row_ptr == [0, 0]` and `critical_node == 0`. -/
theorem C1_contraejemplo :
    (cargarDatos none "# comment\n").map
        (fun r => (r.1.num_nodos, r.1.row_ptr, obtenerNodoCritico r.1))
      = some (1, [0, 0], some 0) ∧
    some ((1 : Int), ([0, 0] : List Int), (some 0 : Option Int))
      ≠ some (0, [0], some (-1)) :=
  ⟨rfl, by decide⟩

/-- C1, amended: after load("# comment\n") with no cache present, the graph
has `num_nodes == 1` (the `max_id = 0` initialisation makes
`num_nodes = max_id + 1 = 1`), `num_edges == 0`, `row_ptr == [0, 0]`,
`col_indices == []`; `critical_node` returns `0` (the lone isolated vertex of
degree 0) and `bfs(0, 5)` returns the empty sequence. -/
theorem C1_enmendada :
    cargarDatos none "# comment\n" = some (⟨1, 0, [0, 0], []⟩, some [1, 0, 0, 0]) ∧
    obtenerNodoCritico ⟨1, 0, [0, 0], []⟩ = some 0 ∧
    bfs ⟨1, 0, [0, 0], []⟩ 0 5 = some [] :=
  ⟨rfl, rfl, rfl⟩

/-! ### Claim C2 -/

/-- C2, counterexample: on the chain `0 1\n1 2\n2 3\n3 4\n`, `bfs(0, 2)`
returns `[(0,1),(1,2)]`, not the claimed `[(0,1),(1,2),(2,3)]`: vertex 2 is
dequeued with `level[2] == 2 >= depth` and is therefore not expanded, so the
edge `(2,3)` is never examined. -/
theorem C2_contraejemplo :
    (cargarDatos none "0 1\n1 2\n2 3\n3 4\n").map (fun r => bfs r.1 0 2)
      = some (some [(0, 1), (1, 2)]) ∧
    (some (some [((0 : Int), (1 : Int)), (1, 2)]) : Option (Option (List (Int × Int))))
      ≠ some (some [(0, 1), (1, 2), (2, 3)]) :=
  ⟨rfl, by decide⟩

/-- C2, amended: for the input text `0 1\n1 2\n2 3\n3 4\n`, `bfs(0, 2)`
returns exactly `[(0,1),(1,2)]`; neither `(2,3)` nor `(3,4)` is emitted,
because a dequeued vertex whose level is at least the depth is not expanded
(`level[2] == 2 >= 2`). -/
theorem C2_enmendada :
    (cargarDatos none "0 1\n1 2\n2 3\n3 4\n").map (fun r => bfs r.1 0 2)
      = some (some [(0, 1), (1, 2)]) := rfl

/-! ### Claim C3 -/

/-- C3, counterexample: a binary cache that parses cleanly is not validated,
so a load from the cache `[1, 1, 0, 5, 7]` succeeds (the stream is good after
all four reads) yet yields `row_ptr == [0, 5]` with `row_ptr[num_nodes] == 5
≠ 1 == num_edges` and `col_indices == [7]` with `7 ∉ [0, 1)`: the CSR
invariants do not hold after this successful load. -/
theorem C3_contraejemplo :
    cargarDatos (some [1, 1, 0, 5, 7]) "" = some (⟨1, 1, [0, 5], [7]⟩, none) ∧
    ¬ invariantes ⟨1, 1, [0, 5], [7]⟩ :=
  ⟨rfl, by decide⟩

/-! ### Claim C4 -/

/-- C4: `bfs` only checks `startNode >= num_nodos`. On the graph loaded from
`0 1\n`, a negative start such as `bfs(-1, 5)` is NOT returned empty: the
write `vis[startNode] = 0` indexes the vector at -1, which is out of bounds
(undefined behaviour, modelled `none`). The two in-range misuse cases of the
claim do hold: `bfs(5, 3)` (start past the last vertex) and `bfs(0, -3)`
(negative depth) both return the empty sequence. -/
theorem C4_inicio_negativo_ub :
    (cargarDatos none "0 1\n").map (fun r => bfs r.1 (-1) 5) = some none ∧
    (cargarDatos none "0 1\n").map (fun r => bfs r.1 5 3) = some (some []) ∧
    (cargarDatos none "0 1\n").map (fun r => bfs r.1 0 (-3)) = some (some []) :=
  ⟨rfl, rfl, rfl⟩

/-! ### Claim C5 -/

/-- C5: the builder never rejects negative vertex identifiers. Loading the
text `0 -1\n` succeeds and stores `-1` in `col_indices`; loading `-1 0\n`
reaches `counts[u]++` with `u == -1`, an out-of-bounds vector write
(undefined behaviour, modelled `none`) — not a rejection that aborts the
load with the instance intact. -/
theorem C5_negativos_no_rechazados :
    cargarDatos none "0 -1\n" = some (⟨1, 1, [0, 1], [-1]⟩, some [1, 1, 0, 1, -1]) ∧
    cargarDatos none "-1 0\n" = none :=
  ⟨rfl, rfl⟩

/-! ### Claim C6 -/

/-- C6: a cache whose header parses but whose body is truncated (content
`[3, 7]`) makes `cargarDesdeCache` fail AFTER having set `num_aristas = 7`
and resized both vectors; the text fallback then increments `num_aristas`
from 7 instead of 0 and keeps the resized `col_indices`, ending with
`num_edges == 8` and `col_indices` of length 8 for the one-edge text
`0 1\n`, whereas the same text with no cache present ends with
`num_edges == 1` and `col_indices == [1]`. -/
theorem C6_reciclaje_tras_cache_corrupta :
    cargarDatos (some [3, 7]) "0 1\n"
      = some (⟨2, 8, [0, 1, 1], [1, 0, 0, 0, 0, 0, 0, 0]⟩,
              some [2, 8, 0, 1, 1, 1, 0, 0, 0, 0, 0, 0, 0]) ∧
    cargarDatos none "0 1\n" = some (⟨2, 1, [0, 1, 1], [1]⟩, some [2, 1, 0, 1, 1, 1]) ∧
    (⟨2, 8, [0, 1, 1], [1, 0, 0, 0, 0, 0, 0, 0]⟩ : Grafo) ≠ ⟨2, 1, [0, 1, 1], [1]⟩ :=
  ⟨rfl, rfl, by decide⟩

/-! ### Claim C9 -/

/-- C9: the query members mutate nothing: for every object state and every
argument, the state after `bfs`, `obtenerNodoCritico`, `getNumNodos` or
`getNumAristas` equals the state before (their bodies contain no field
assignment). -/
theorem C9_consultas_sin_mutacion (g : Grafo) (s d : Int) :
    (bfsMet s d g).2 = g ∧ (obtenerNodoCriticoMet g).2 = g ∧
    (getNumNodos g).2 = g ∧ (getNumAristas g).2 = g :=
  ⟨rfl, rfl, rfl, rfl⟩

/-! ### Helper lemmas about the checked vector operations -/

theorem getI_some {l : List Int} {i x : Int} (h : getI l i = some x) :
    0 ≤ i ∧ i.toNat < l.length ∧ l[i.toNat]? = some x := by
  unfold getI at h
  split at h
  · cases h
  · next hi => exact ⟨le_of_not_lt hi, (List.getElem?_eq_some.mp h).1, h⟩

theorem getI_mem {l : List Int} {i x : Int} (h : getI l i = some x) : x ∈ l := by
  obtain ⟨-, hlt, hg⟩ := getI_some h
  obtain ⟨h1, h2⟩ := List.getElem?_eq_some.mp hg
  exact h2 ▸ List.getElem_mem h1

theorem setI_some {l : List Int} {i x : Int} {l' : List Int}
    (h : setI l i x = some l') :
    0 ≤ i ∧ i.toNat < l.length ∧ l' = l.set i.toNat x := by
  unfold setI at h
  split at h
  · next hc => exact ⟨hc.1, hc.2, (Option.some_inj.mp h).symm⟩
  · cases h

theorem sum_set_int : ∀ (l : List Int) (n : Nat) (a : Int) (h : n < l.length),
    (l.set n a).sum = l.sum - l[n] + a
  | [], n, a, h => absurd h (by simp)
  | x :: t, 0, a, _ => by simp [List.set, List.getElem_cons_zero]; ring
  | x :: t, n + 1, a, h => by
    simp only [List.set, List.sum_cons, List.getElem_cons_succ]
    rw [sum_set_int t n a (by simpa using h)]
    ring

theorem getI_getElem {l : List Int} {i x : Int} (h : getI l i = some x)
    (hlt : i.toNat < l.length) : l[i.toNat] = x := by
  obtain ⟨-, -, hg⟩ := getI_some h
  exact (List.getElem?_eq_some.mp hg).2

/-! ### Facts about the three builder passes -/

theorem histograma_facts : ∀ {es : List (Int × Int)} {c c' : List Int},
    histograma es c = some c' →
    c'.length = c.length ∧ c'.sum = c.sum + es.length ∧
    ((∀ x ∈ c, 0 ≤ x) → ∀ x ∈ c', 0 ≤ x) := by
  intro es
  induction es with
  | nil =>
    intro c c' h
    rw [histograma] at h
    cases h
    simp
  | cons p rest ih =>
    intro c c' h
    rw [histograma] at h
    obtain ⟨cv, hcv, h1⟩ := Option.bind_eq_some.mp h
    obtain ⟨c2, hc2, h2⟩ := Option.bind_eq_some.mp h1
    obtain ⟨hi0, hilt, rfl⟩ := setI_some hc2
    obtain ⟨hlen, hsum, hpos⟩ := ih h2
    have hget := getI_getElem hcv hilt
    refine ⟨by rw [hlen, List.length_set], ?_, ?_⟩
    · rw [hsum, sum_set_int _ _ _ hilt, hget]
      simp only [List.length_cons]
      push_cast
      ring
    · intro hc x hx
      refine hpos (fun y hy => ?_) x hx
      rcases List.mem_or_eq_of_mem_set hy with hyc | rfl
      · exact hc y hyc
      · have : 0 ≤ cv := hc _ (getI_mem hcv)
        omega

theorem sumaPrefija_length : ∀ (acc : Int) (l : List Int),
    (sumaPrefija acc l).length = l.length + 1
  | _, [] => rfl
  | acc, c :: rest => by
    rw [sumaPrefija, List.length_cons, sumaPrefija_length (acc + c) rest,
      List.length_cons]

theorem sumaPrefija_head : ∀ (acc : Int) (l : List Int),
    (sumaPrefija acc l).head? = some acc
  | _, [] => rfl
  | _, _ :: _ => rfl

theorem sumaPrefija_getLast : ∀ (acc : Int) (l : List Int),
    (sumaPrefija acc l).getLast? = some (acc + l.sum)
  | acc, [] => by simp [sumaPrefija]
  | acc, c :: rest => by
    have ih := sumaPrefija_getLast (acc + c) rest
    rw [sumaPrefija]
    cases rest with
    | nil => simp [sumaPrefija]
    | cons d r =>
      rw [sumaPrefija] at ih ⊢
      rw [List.getLast?_cons_cons, ih]
      simp only [List.sum_cons, Option.some_inj]
      ring

theorem sumaPrefija_chain : ∀ (acc : Int) (l : List Int), (∀ x ∈ l, 0 ≤ x) →
    List.Chain' (· ≤ ·) (sumaPrefija acc l)
  | _, [], _ => by simp [sumaPrefija]
  | acc, c :: rest, h => by
    rw [sumaPrefija, List.chain'_cons']
    refine ⟨?_, sumaPrefija_chain (acc + c) rest
      (fun x hx => h x (List.mem_cons_of_mem _ hx))⟩
    intro y hy
    rw [sumaPrefija_head] at hy
    have hc : 0 ≤ c := h c (List.mem_cons_self _ _)
    cases hy
    omega

theorem dispersar_facts : ∀ {es : List (Int × Int)} {cur col cur' col' : List Int},
    dispersar es cur col = some (cur', col') →
    col'.length = col.length ∧
    ∀ x ∈ col', x ∈ col ∨ ∃ p ∈ es, x = p.2 := by
  intro es
  induction es with
  | nil =>
    intro cur col cur' col' h
    rw [dispersar] at h
    cases h
    exact ⟨rfl, fun x hx => Or.inl hx⟩
  | cons p rest ih =>
    intro cur col cur' col' h
    rw [dispersar] at h
    obtain ⟨cv, hcv, h1⟩ := Option.bind_eq_some.mp h
    obtain ⟨col1, hcol1, h2⟩ := Option.bind_eq_some.mp h1
    obtain ⟨cur1, hcur1, h3⟩ := Option.bind_eq_some.mp h2
    obtain ⟨-, hclt, rfl⟩ := setI_some hcol1
    obtain ⟨hlen, hmem⟩ := ih h3
    refine ⟨by rw [hlen, List.length_set], ?_⟩
    intro x hx
    rcases hmem x hx with hset | ⟨q, hq, hxq⟩
    · rcases List.mem_or_eq_of_mem_set hset with hcol | rfl
      · exact Or.inl hcol
      · exact Or.inr ⟨p, List.mem_cons_self _ _, rfl⟩
    · exact Or.inr ⟨q, List.mem_cons_of_mem _ hq, hxq⟩

theorem maxId_init_le : ∀ (es : List (Int × Int)) (m : Int),
    m ≤ es.foldl (fun a p => max (max a p.1) p.2) m
  | [], m => le_refl m
  | p :: rest, m => by
    rw [List.foldl_cons]
    exact le_trans (by simp [le_max_iff]) (maxId_init_le rest _)

theorem maxId_mem_le : ∀ {es : List (Int × Int)} (p : Int × Int), p ∈ es →
    ∀ (m : Int), p.1 ≤ es.foldl (fun a q => max (max a q.1) q.2) m ∧
      p.2 ≤ es.foldl (fun a q => max (max a q.1) q.2) m := by
  intro es
  induction es with
  | nil => intro p hp; cases hp
  | cons q rest ih =>
    intro p hp m
    rcases List.mem_cons.mp hp with rfl | hp'
    · rw [List.foldl_cons]
      constructor
      · exact le_trans (by simp [le_max_iff]) (maxId_init_le rest _)
      · exact le_trans (by simp [le_max_iff]) (maxId_init_le rest _)
    · rw [List.foldl_cons]
      exact ih p hp' _

theorem maxId_nonneg (es : List (Int × Int)) : 0 ≤ maxId es :=
  maxId_init_le es 0

theorem le_maxId {es : List (Int × Int)} {p : Int × Int} (hp : p ∈ es) :
    p.1 ≤ maxId es ∧ p.2 ≤ maxId es :=
  maxId_mem_le p hp 0

/-! ### Structure of a successful fresh text load -/

theorem resizeL_nil (n : Nat) : resizeL [] n = List.replicate n 0 := by
  simp [resizeL]

theorem cargarDatos_none_eq {text : String} {g : Grafo} {w : Option (List Int)}
    (h : cargarDatos none text = some (g, w)) :
    cargarDatosTexto text grafoVacio = some g ∧ w = some (guardarCache g) := by
  unfold cargarDatos at h
  cases htx : cargarDatosTexto text grafoVacio with
  | none => rw [htx] at h; cases h
  | some g2 =>
    rw [htx] at h
    simp only [Option.some_inj, Prod.mk.injEq] at h
    obtain ⟨rfl, hw⟩ := h
    exact ⟨rfl, hw.symm⟩

theorem cargarDatosTexto_vacio_eq {text : String} {g : Grafo}
    (h : cargarDatosTexto text grafoVacio = some g) :
    ∃ counts cur col,
      histograma (analizarAristas text)
          (List.replicate (maxId (analizarAristas text) + 1).toNat 0) = some counts ∧
      dispersar (analizarAristas text) (sumaPrefija 0 counts)
          (List.replicate (analizarAristas text).length 0) = some (cur, col) ∧
      g = ⟨maxId (analizarAristas text) + 1, ((analizarAristas text).length : Int),
           sumaPrefija 0 counts, col⟩ := by
  rw [cargarDatosTexto] at h
  simp only [grafoVacio, zero_add] at h
  rw [if_neg (not_lt.mpr (Int.natCast_nonneg _))] at h
  simp only [Int.toNat_natCast, resizeL_nil] at h
  obtain ⟨counts, hh, h1⟩ := Option.bind_eq_some.mp h
  obtain ⟨pc, hd, h2⟩ := Option.bind_eq_some.mp h1
  obtain ⟨cur, col⟩ := pc
  refine ⟨counts, cur, col, hh, hd, ?_⟩
  exact (Option.some_inj.mp h2).symm

/-- C3, amended: after a successful load that built the CSR from the text
file starting from a fresh instance, on an input all of whose edge endpoints
are non-negative, the CSR invariants hold: `row_ptr` has length
`num_nodes + 1`, is non-decreasing, starts at 0, ends at `num_edges`, and
every column index lies in `[0, num_nodes)`. (Cache loads are not validated,
see the counterexample.) -/
theorem C3_invariantes_texto (text : String) (g : Grafo) (w : Option (List Int))
    (h : cargarDatos none text = some (g, w))
    (hpos : ∀ p ∈ analizarAristas text, 0 ≤ p.1 ∧ 0 ≤ p.2) :
    invariantes g := by
  obtain ⟨htx, -⟩ := cargarDatos_none_eq h
  obtain ⟨counts, cur, col, hh, hd, rfl⟩ := cargarDatosTexto_vacio_eq htx
  obtain ⟨hclen, hcsum, hcpos⟩ := histograma_facts hh
  obtain ⟨hdlen, hdmem⟩ := dispersar_facts hd
  have hM : 0 ≤ maxId (analizarAristas text) := maxId_nonneg _
  have hcnn : ∀ x ∈ counts, 0 ≤ x := by
    refine hcpos (fun x hx => ?_)
    rw [List.eq_of_mem_replicate hx]
  refine ⟨?_, ?_, ?_, ?_, ?_⟩ <;> dsimp only
  · show ((sumaPrefija 0 counts).length : Int) = _
    rw [sumaPrefija_length, hclen, List.length_replicate]
    omega
  · exact sumaPrefija_chain 0 counts hcnn
  · exact sumaPrefija_head 0 counts
  · show (sumaPrefija 0 counts).getLast? = _
    rw [sumaPrefija_getLast, hcsum, List.sum_replicate]
    simp
  · intro v hv
    rcases hdmem v hv with h0 | ⟨p, hp, rfl⟩
    · rw [List.eq_of_mem_replicate h0]
      omega
    · have h1 := (hpos p hp).2
      have h2 := (le_maxId hp).2
      omega

/-- C3, witness for the amended theorem at the input `0 1\n`. -/
theorem C3_invariantes_texto_testigo :
    cargarDatos none "0 1\n" = some (⟨2, 1, [0, 1, 1], [1]⟩, some [2, 1, 0, 1, 1, 1]) ∧
    (∀ p ∈ analizarAristas "0 1\n", 0 ≤ p.1 ∧ 0 ≤ p.2) ∧
    invariantes ⟨2, 1, [0, 1, 1], [1]⟩ :=
  ⟨rfl, by decide, C3_invariantes_texto "0 1\n" _ _ rfl (by decide)⟩

theorem cargarDatosTexto_vacio_forma {text : String} {g : Grafo}
    (h : cargarDatosTexto text grafoVacio = some g) :
    1 ≤ g.num_nodos ∧ 0 ≤ g.num_aristas ∧
    g.row_ptr.length = (g.num_nodos + 1).toNat ∧
    g.col_indices.length = g.num_aristas.toNat := by
  obtain ⟨counts, cur, col, hh, hd, rfl⟩ := cargarDatosTexto_vacio_eq h
  obtain ⟨hclen, -, -⟩ := histograma_facts hh
  obtain ⟨hdlen, -⟩ := dispersar_facts hd
  have hM := maxId_nonneg (analizarAristas text)
  dsimp only
  refine ⟨by omega, Int.natCast_nonneg _, ?_, ?_⟩
  · rw [sumaPrefija_length, hclen, List.length_replicate]
    omega
  · rw [hdlen, List.length_replicate]
    omega

theorem leerBloqueCache_exacto (pre post dst : List Int) (h : dst.length = pre.length) :
    leerBloqueCache (pre ++ post, true) dst = (pre, (post, true)) := by
  rw [leerBloqueCache]
  rw [if_pos (by rw [h, List.length_append]; omega)]
  rw [h, List.take_left, List.drop_left]

theorem leerBloqueCache_todo (data dst : List Int) (h : dst.length = data.length) :
    leerBloqueCache (data, true) dst = (data, ([], true)) := by
  have h2 := leerBloqueCache_exacto data [] dst (by simpa using h)
  simpa using h2

/-- C7: round-trip. If `load(path)` with no cache present succeeds and writes
the cache `w`, then a fresh `load(path)` with that cache present succeeds
through the cache branch and reproduces exactly the same `num_nodes`,
`num_edges`, `row_ptr` and `col_indices` (and writes no new cache). -/
theorem C7_ida_y_vuelta (text : String) (g : Grafo) (w : List Int)
    (h : cargarDatos none text = some (g, some w)) :
    cargarDatos (some w) text = some (g, none) := by
  obtain ⟨htx, hw⟩ := cargarDatos_none_eq h
  have hw' : w = guardarCache g := Option.some_inj.mp hw
  obtain ⟨hn1, he0, hrp, hcol⟩ := cargarDatosTexto_vacio_forma htx
  have hload : cargarDesdeCache (guardarCache g) grafoVacio = some (true, g) := by
    rw [guardarCache, cargarDesdeCache]
    simp only [leerEnteroCache]
    rw [if_neg (by omega)]
    have hb1 : leerBloqueCache (g.row_ptr ++ g.col_indices, true)
        (resizeL grafoVacio.row_ptr (g.num_nodos + 1).toNat) = (g.row_ptr, (g.col_indices, true)) := by
      refine leerBloqueCache_exacto _ _ _ ?_
      show (resizeL [] _).length = _
      rw [resizeL_nil, List.length_replicate, hrp]
    have hb2 : leerBloqueCache (g.col_indices, true)
        (resizeL grafoVacio.col_indices g.num_aristas.toNat) = (g.col_indices, ([], true)) := by
      refine leerBloqueCache_todo _ _ ?_
      show (resizeL [] _).length = _
      rw [resizeL_nil, List.length_replicate, hcol]
    rw [hb1, hb2]
  rw [hw']
  unfold cargarDatos
  simp only [hload]

/-- C7, witness at the input `0 1\n`. -/
theorem C7_ida_y_vuelta_testigo :
    cargarDatos none "0 1\n" = some (⟨2, 1, [0, 1, 1], [1]⟩, some [2, 1, 0, 1, 1, 1]) ∧
    cargarDatos (some [2, 1, 0, 1, 1, 1]) "0 1\n" = some (⟨2, 1, [0, 1, 1], [1]⟩, none) :=
  ⟨rfl, C7_ida_y_vuelta "0 1\n" ⟨2, 1, [0, 1, 1], [1]⟩ [2, 1, 0, 1, 1, 1] rfl⟩

/-! ### Claim C8: the critical-node scan -/

theorem getI_en_rango {l : List Int} {i : Int} (h0 : 0 ≤ i)
    (hlt : i.toNat < l.length) : getI l i = some (l.getD i.toNat 0) := by
  unfold getI
  rw [if_neg (not_lt.mpr h0), List.getElem?_eq_getElem hlt,
    List.getD_eq_getElem l 0 hlt]

theorem grado_eq {g : Grafo} (hlen : (g.row_ptr.length : Int) = g.num_nodos + 1)
    {v : Int} (h0 : 0 ≤ v) (hv : v < g.num_nodos) :
    grado g v = some (gradoD g v.toNat) := by
  have h1 : v.toNat < g.row_ptr.length := by omega
  have h2 : (v + 1).toNat < g.row_ptr.length := by omega
  have h3 : (v + 1).toNat = v.toNat + 1 := by omega
  unfold grado gradoD
  rw [getI_en_rango h0 h1, getI_en_rango (by omega) h2, h3]
  rfl

theorem criticoLoop_spec (g : Grafo) :
    ∀ (k : Nat) (i max_d mejor : Int), 0 ≤ i →
    i.toNat + k + 1 = g.row_ptr.length →
    (∀ j : Nat, j + 1 < g.row_ptr.length → 0 ≤ gradoD g j) →
    ((max_d = -1 ∧ mejor = -1 ∧ i = 0) ∨
      (0 ≤ mejor ∧ mejor < i ∧ gradoD g mejor.toNat = max_d ∧
        (∀ v : Int, 0 ≤ v → v < i → gradoD g v.toNat ≤ max_d) ∧
        (∀ v : Int, 0 ≤ v → v < mejor → gradoD g v.toNat < max_d))) →
    ∃ u m, criticoLoop g k i max_d mejor = some u ∧
      ((u = -1 ∧ m = -1 ∧ i + (k : Int) = 0) ∨
        (0 ≤ u ∧ u < i + (k : Int) ∧ gradoD g u.toNat = m ∧
          (∀ v : Int, 0 ≤ v → v < i + (k : Int) → gradoD g v.toNat ≤ m) ∧
          (∀ v : Int, 0 ≤ v → v < u → gradoD g v.toNat < m))) := by
  intro k
  induction k with
  | zero =>
    intro i max_d mejor h0 hlen hdeg hP
    refine ⟨mejor, max_d, rfl, ?_⟩
    have hik : i + ((0 : Nat) : Int) = i := by push_cast; ring
    rw [hik]
    rcases hP with ⟨h1, h2, h3⟩ | hR
    · exact Or.inl ⟨h2, h1, h3⟩
    · exact Or.inr hR
  | succ k ih =>
    intro i max_d mejor h0 hlen hdeg hP
    have h1 : i.toNat < g.row_ptr.length := by omega
    have h2 : (i + 1).toNat < g.row_ptr.length := by omega
    have h3 : (i + 1).toNat = i.toNat + 1 := by omega
    have hd0 : 0 ≤ gradoD g i.toNat := hdeg i.toNat (by omega)
    rw [criticoLoop, getI_en_rango h0 h1, getI_en_rango (by omega) h2, h3]
    have hdval : g.row_ptr.getD (i.toNat + 1) 0 - g.row_ptr.getD i.toNat 0
        = gradoD g i.toNat := rfl
    simp only [Option.bind_eq_bind, Option.some_bind, hdval]
    split
    · next hgt =>
      have hub : ∀ v : Int, 0 ≤ v → v < i + 1 →
          gradoD g v.toNat ≤ gradoD g i.toNat := by
        intro v hv0 hvi
        rcases lt_or_ge v i with hlt | hge
        · rcases hP with ⟨-, -, hi0⟩ | ⟨-, -, -, hmax, -⟩
          · omega
          · exact le_of_lt (lt_of_le_of_lt (hmax v hv0 hlt) hgt)
        · have hvi' : v = i := by omega
          rw [hvi']
      have hsb : ∀ v : Int, 0 ≤ v → v < i →
          gradoD g v.toNat < gradoD g i.toNat := by
        intro v hv0 hvi
        rcases hP with ⟨-, -, hi0⟩ | ⟨-, -, -, hmax, -⟩
        · omega
        · exact lt_of_le_of_lt (hmax v hv0 hvi) hgt
      obtain ⟨u, m, hrun, hconc⟩ := ih (i + 1) (gradoD g i.toNat) i (by omega)
        (by omega) hdeg (Or.inr ⟨h0, by omega, rfl, hub, hsb⟩)
      refine ⟨u, m, hrun, ?_⟩
      rcases hconc with ⟨-, -, habs⟩ | ⟨c1, c2, c3, c4, c5⟩
      · exact absurd habs (by omega)
      · exact Or.inr ⟨c1, by push_cast at c2 ⊢; omega, c3,
          fun v hv0 hvk => c4 v hv0 (by push_cast at hvk ⊢; omega), c5⟩
    · next hngt =>
      have hle : gradoD g i.toNat ≤ max_d := not_lt.mp hngt
      rcases hP with ⟨hm1, -, -⟩ | ⟨hm0, hmi, hgm, hmax, hstr⟩
      · omega
      · have hub : ∀ v : Int, 0 ≤ v → v < i + 1 → gradoD g v.toNat ≤ max_d := by
          intro v hv0 hvi
          rcases lt_or_ge v i with hlt | hge
          · exact hmax v hv0 hlt
          · have hvi' : v = i := by omega
            rw [hvi']
            exact hle
        obtain ⟨u, m, hrun, hconc⟩ := ih (i + 1) max_d mejor (by omega)
          (by omega) hdeg (Or.inr ⟨hm0, by omega, hgm, hub, hstr⟩)
        refine ⟨u, m, hrun, ?_⟩
        rcases hconc with ⟨-, -, habs⟩ | ⟨c1, c2, c3, c4, c5⟩
        · exact absurd habs (by omega)
        · exact Or.inr ⟨c1, by push_cast at c2 ⊢; omega, c3,
            fun v hv0 hvk => c4 v hv0 (by push_cast at hvk ⊢; omega), c5⟩

/-- C8: on any graph satisfying the CSR invariants, `obtenerNodoCritico`
returns -1 when `num_nodes == 0`, and otherwise the vertex of maximal
out-degree `row_ptr[u+1] - row_ptr[u]`, with ties broken towards the lowest
vertex (every vertex below the returned one has strictly smaller degree). -/
theorem C8_nodo_critico (g : Grafo) (hinv : invariantes g) :
    (g.num_nodos = 0 → obtenerNodoCritico g = some (-1)) ∧
    (0 < g.num_nodos → ∃ u du, obtenerNodoCritico g = some u ∧
      0 ≤ u ∧ u < g.num_nodos ∧ grado g u = some du ∧
      (∀ v : Int, 0 ≤ v → v < g.num_nodos →
        ∃ dv, grado g v = some dv ∧ dv ≤ du) ∧
      (∀ v : Int, 0 ≤ v → v < u → ∃ dv, grado g v = some dv ∧ dv < du)) := by
  obtain ⟨hlen, hchain, hhead, -, -⟩ := hinv
  have hne : g.row_ptr ≠ [] := by
    intro hnil
    rw [hnil] at hhead
    cases hhead
  have hlen1 : 1 ≤ g.row_ptr.length := List.length_pos.mpr hne
  have hn0 : 0 ≤ g.num_nodos := by omega
  have hdeg : ∀ j : Nat, j + 1 < g.row_ptr.length → 0 ≤ gradoD g j := by
    intro j hj
    have hc := (List.chain'_iff_get.mp hchain) j (by omega)
    unfold gradoD
    rw [List.getD_eq_getElem g.row_ptr 0 (by omega : j + 1 < g.row_ptr.length),
      List.getD_eq_getElem g.row_ptr 0 (by omega : j < g.row_ptr.length)]
    simp only [List.get_eq_getElem] at hc
    omega
  constructor
  · intro h0
    unfold obtenerNodoCritico
    rw [h0]
    rfl
  · intro hpos
    obtain ⟨u, m, hres, hconc⟩ := criticoLoop_spec g g.num_nodos.toNat 0 (-1) (-1)
      le_rfl (by omega) hdeg (Or.inl ⟨rfl, rfl, rfl⟩)
    rcases hconc with ⟨-, -, habs⟩ | ⟨hu0, hun, hgu, hmax, hstr⟩
    · exact absurd habs (by omega)
    · have hun' : u < g.num_nodos := by omega
      refine ⟨u, gradoD g u.toNat, hres, hu0, hun', grado_eq hlen hu0 hun', ?_, ?_⟩
      · intro v hv0 hvn
        exact ⟨gradoD g v.toNat, grado_eq hlen hv0 hvn,
          hgu ▸ hmax v hv0 (by omega)⟩
      · intro v hv0 hvu
        exact ⟨gradoD g v.toNat, grado_eq hlen hv0 (by omega),
          hgu ▸ hstr v hv0 hvu⟩

/-- C8, witness at the graph loaded from `0 1\n`. -/
theorem C8_nodo_critico_testigo :
    ∃ u du, obtenerNodoCritico ⟨2, 1, [0, 1, 1], [1]⟩ = some u ∧
      0 ≤ u ∧ u < (2 : Int) ∧ grado ⟨2, 1, [0, 1, 1], [1]⟩ u = some du ∧
      (∀ v : Int, 0 ≤ v → v < (2 : Int) →
        ∃ dv, grado ⟨2, 1, [0, 1, 1], [1]⟩ v = some dv ∧ dv ≤ du) ∧
      (∀ v : Int, 0 ≤ v → v < u →
        ∃ dv, grado ⟨2, 1, [0, 1, 1], [1]⟩ v = some dv ∧ dv < du) :=
  (C8_nodo_critico ⟨2, 1, [0, 1, 1], [1]⟩ (by decide)).2 (by decide)

/-! ### Claim C10: the BFS emits at most `num_edges` pairs

Every vertex is enqueued at most once (a target is enqueued only while its
`vis` entry is -1, which the enqueue immediately overwrites), so every
dequeued vertex is expanded at most once and the output cannot exceed the
total out-degree `num_edges`. The proof tracks the potential
`sumaGrados q + sumaNoVisitados vis`: degrees of queued plus degrees of
still-unvisited vertices. -/

theorem gradoD_nonneg {g : Grafo} (hchain : List.Chain' (· ≤ ·) g.row_ptr)
    {j : Nat} (hj : j + 1 < g.row_ptr.length) : 0 ≤ gradoD g j := by
  have hc := (List.chain'_iff_get.mp hchain) j (by omega)
  unfold gradoD
  rw [List.getD_eq_getElem g.row_ptr 0 hj,
    List.getD_eq_getElem g.row_ptr 0 (by omega : j < g.row_ptr.length)]
  simp only [List.get_eq_getElem] at hc
  omega

theorem sumaNoVisitados_nonneg {g : Grafo}
    (hchain : List.Chain' (· ≤ ·) g.row_ptr) {vis : List Int}
    (hvl : vis.length + 1 = g.row_ptr.length) :
    0 ≤ sumaNoVisitados g vis := by
  refine Finset.sum_nonneg fun j hj => ?_
  have hjr := Finset.mem_range.mp (Finset.mem_filter.mp hj).1
  exact gradoD_nonneg hchain (by omega)

theorem getI_getD {l : List Int} {i x : Int} (h : getI l i = some x) :
    l.getD i.toNat 0 = x := by
  obtain ⟨-, hlt, hg⟩ := getI_some h
  rw [List.getD, List.get?_eq_getElem?, hg]
  rfl

theorem sumaGrados_append (g : Grafo) (q : List Int) (v : Int) :
    sumaGrados g (q ++ [v]) = sumaGrados g q + gradoD g v.toNat := by
  unfold sumaGrados
  rw [List.map_append, List.sum_append]
  simp

theorem sumaGrados_cons (g : Grafo) (u : Int) (q : List Int) :
    sumaGrados g (u :: q) = gradoD g u.toNat + sumaGrados g q := by
  unfold sumaGrados
  simp

theorem sumaNoVisitados_set {g : Grafo} {vis : List Int} {j0 : Nat} {nv : Int}
    (hj0 : j0 < vis.length) (hold : vis.getD j0 0 = -1) (hnv : nv ≠ -1) :
    sumaNoVisitados g (vis.set j0 nv)
      = sumaNoVisitados g vis - gradoD g j0 := by
  unfold sumaNoVisitados
  rw [List.length_set]
  have key : ∀ j, ((vis.set j0 nv).getD j 0 = -1) ↔
      (vis.getD j 0 = -1 ∧ j ≠ j0) := by
    intro j
    rcases eq_or_ne j j0 with rfl | hne
    · rw [List.getD, List.get?_eq_getElem?, List.getElem?_set_self hj0]
      simp [hnv, hold]
    · rw [List.getD, List.get?_eq_getElem?, List.getElem?_set_ne (Ne.symm hne),
        ← List.get?_eq_getElem?, ← List.getD]
      simp [hne]
  have hset : (Finset.range vis.length).filter
        (fun j => (vis.set j0 nv).getD j 0 = -1)
      = ((Finset.range vis.length).filter
          (fun j => vis.getD j 0 = -1)).erase j0 := by
    ext j
    simp only [Finset.mem_filter, Finset.mem_erase, Finset.mem_range]
    constructor
    · rintro ⟨hjr, hjv⟩
      obtain ⟨h1, h2⟩ := (key j).mp hjv
      exact ⟨h2, hjr, h1⟩
    · rintro ⟨hne, hjr, hjv⟩
      exact ⟨hjr, (key j).mpr ⟨hjv, hne⟩⟩
  rw [hset, Finset.sum_erase_eq_sub
    (Finset.mem_filter.mpr ⟨Finset.mem_range.mpr hj0, hold⟩)]

theorem suma_total {g : Grafo}
    (hlen : (g.row_ptr.length : Int) = g.num_nodos + 1)
    (hhead : g.row_ptr.head? = some 0)
    (hlast : g.row_ptr.getLast? = some g.num_aristas) :
    ∑ j in Finset.range g.num_nodos.toNat, gradoD g j = g.num_aristas := by
  have hne : g.row_ptr ≠ [] := by
    intro hnil
    rw [hnil] at hhead
    cases hhead
  have h1 : 1 ≤ g.row_ptr.length := List.length_pos.mpr hne
  have hN : g.row_ptr.length = g.num_nodos.toNat + 1 := by omega
  unfold gradoD
  rw [Finset.sum_range_sub (fun j => g.row_ptr.getD j 0) g.num_nodos.toNat]
  have hh : g.row_ptr.getD 0 0 = 0 := by
    cases hrp : g.row_ptr with
    | nil => exact absurd hrp hne
    | cons a t =>
      rw [hrp] at hhead
      simp only [List.head?_cons, Option.some_inj] at hhead
      simp [List.getD, hhead]
  have hl : g.row_ptr.getD g.num_nodos.toNat 0 = g.num_aristas := by
    rw [List.getLast?_eq_getElem?,
      show g.row_ptr.length - 1 = g.num_nodos.toNat from by omega] at hlast
    rw [List.getD, List.get?_eq_getElem?, hlast]
    rfl
  rw [hh, hl]
  ring

theorem bfsInterior_spec (g : Grafo)
    (hcols : ∀ v ∈ g.col_indices, 0 ≤ v ∧ v < g.num_nodos) :
    ∀ (k : Nat) (u lu i : Int) (q vis : List Int) (res : List (Int × Int))
      (t : List Int × List Int × List (Int × Int)),
    bfsInterior g u lu k i q vis res = some t →
    (-1 : Int) ≤ lu →
    (∀ x ∈ vis, (-1 : Int) ≤ x) →
    (∀ w ∈ q, 0 ≤ w ∧ w < g.num_nodos) →
    t.2.1.length = vis.length ∧
    (∀ x ∈ t.2.1, (-1 : Int) ≤ x) ∧
    (∀ w ∈ t.1, 0 ≤ w ∧ w < g.num_nodos) ∧
    t.2.2.length = res.length + k ∧
    sumaGrados g t.1 + sumaNoVisitados g t.2.1
      = sumaGrados g q + sumaNoVisitados g vis := by
  intro k
  induction k with
  | zero =>
    intro u lu i q vis res t ht hlu hvis hq
    rw [bfsInterior] at ht
    cases ht
    exact ⟨rfl, hvis, hq, by simp, rfl⟩
  | succ k ih =>
    intro u lu i q vis res t ht hlu hvis hq
    rw [bfsInterior] at ht
    obtain ⟨v, hv, ht1⟩ := Option.bind_eq_some.mp ht
    obtain ⟨lv, hlv, ht2⟩ := Option.bind_eq_some.mp ht1
    have hvb := hcols v (getI_mem hv)
    split at ht2
    · next hlv1 =>
      obtain ⟨vis2, hvis2, ht3⟩ := Option.bind_eq_some.mp ht2
      obtain ⟨-, hvlt, rfl⟩ := setI_some hvis2
      have hvd : vis.getD v.toNat 0 = -1 := by
        rw [getI_getD hlv, hlv1]
      have hset := sumaNoVisitados_set (g := g) hvlt hvd
        (by omega : lu + 1 ≠ -1)
      have hvis' : ∀ x ∈ vis.set v.toNat (lu + 1), (-1 : Int) ≤ x := by
        intro x hx
        rcases List.mem_or_eq_of_mem_set hx with hx' | rfl
        · exact hvis x hx'
        · omega
      have hq' : ∀ w ∈ q ++ [v], 0 ≤ w ∧ w < g.num_nodos := by
        intro w hw
        rcases List.mem_append.mp hw with hw' | hw'
        · exact hq w hw'
        · rw [List.mem_singleton.mp hw']
          exact hvb
      obtain ⟨c1, c2, c3, c4, c5⟩ := ih u lu (i + 1) (q ++ [v])
        (vis.set v.toNat (lu + 1)) (res ++ [(u, v)]) t ht3 hlu hvis' hq'
      refine ⟨by rw [c1, List.length_set], c2, c3, ?_, ?_⟩
      · rw [c4, List.length_append]
        simp
        omega
      · rw [c5, sumaGrados_append, hset]
        ring
    · next hlv1 =>
      obtain ⟨c1, c2, c3, c4, c5⟩ := ih u lu (i + 1) q vis
        (res ++ [(u, v)]) t ht2 hlu hvis hq
      refine ⟨c1, c2, c3, ?_, c5⟩
      rw [c4, List.length_append]
      simp
      omega

theorem bfsCiclo_spec (g : Grafo) (depth : Int)
    (hlen : (g.row_ptr.length : Int) = g.num_nodos + 1)
    (hchain : List.Chain' (· ≤ ·) g.row_ptr)
    (hcols : ∀ v ∈ g.col_indices, 0 ≤ v ∧ v < g.num_nodos) :
    ∀ (fuel : Nat) (q vis : List Int) (res out : List (Int × Int)),
    bfsCiclo g depth fuel q vis res = some out →
    (vis.length : Int) = g.num_nodos →
    (∀ x ∈ vis, (-1 : Int) ≤ x) →
    (∀ w ∈ q, 0 ≤ w ∧ w < g.num_nodos) →
    (out.length : Int) ≤ res.length + sumaGrados g q + sumaNoVisitados g vis := by
  intro fuel
  induction fuel with
  | zero =>
    intro q vis res out hout hvl hvis hq
    rw [bfsCiclo] at hout
    split at hout
    · next hqe =>
      cases hout
      rw [List.isEmpty_iff.mp hqe]
      have hU := sumaNoVisitados_nonneg (g := g) hchain
        (by omega : vis.length + 1 = g.row_ptr.length)
      have hS : sumaGrados g [] = 0 := rfl
      omega
    · cases hout
  | succ fuel ih =>
    intro q vis res out hout hvl hvis hq
    cases q with
    | nil =>
      rw [bfsCiclo] at hout
      cases hout
      have hU := sumaNoVisitados_nonneg (g := g) hchain
        (by omega : vis.length + 1 = g.row_ptr.length)
      have hS : sumaGrados g [] = 0 := rfl
      omega
    | cons u qt =>
      rw [bfsCiclo] at hout
      obtain ⟨lu, hlu, hout1⟩ := Option.bind_eq_some.mp hout
      have hub := hq u (List.mem_cons_self _ _)
      have hgu0 : 0 ≤ gradoD g u.toNat :=
        gradoD_nonneg hchain (by omega : u.toNat + 1 < g.row_ptr.length)
      have hqt : ∀ w ∈ qt, 0 ≤ w ∧ w < g.num_nodos :=
        fun w hw => hq w (List.mem_cons_of_mem _ hw)
      have hSq := sumaGrados_cons g u qt
      split at hout1
      · -- vis[u] >= depth: u is not expanded
        have hrec := ih qt vis res out hout1 hvl hvis hqt
        rw [hSq]
        omega
      · -- expand the neighbour slice of u
        obtain ⟨r1, hr1, hout2⟩ := Option.bind_eq_some.mp hout1
        obtain ⟨r2, hr2, hout3⟩ := Option.bind_eq_some.mp hout2
        obtain ⟨t, hti, hout4⟩ := Option.bind_eq_some.mp hout3
        have hlu1 : (-1 : Int) ≤ lu := hvis lu (getI_mem hlu)
        obtain ⟨c1, c2, c3, c4, c5⟩ := bfsInterior_spec g hcols
          ((r2 - r1).toNat) u lu r1 qt vis res t hti hlu1 hvis hqt
        have hr1d : g.row_ptr.getD u.toNat 0 = r1 := getI_getD hr1
        have hr2d : g.row_ptr.getD (u.toNat + 1) 0 = r2 := by
          have h := getI_getD hr2
          rw [show (u + 1).toNat = u.toNat + 1 from by omega] at h
          exact h
        have hdiff : r2 - r1 = gradoD g u.toNat := by
          unfold gradoD
          omega
        have hrec := ih t.1 t.2.1 t.2.2 out hout4 (by omega) c2 c3
        rw [hSq]
        omega

/-- C10: on any graph satisfying the CSR invariants, a `bfs` call that
completes without an out-of-bounds access returns at most `num_edges` pairs:
each vertex is enqueued only while unvisited and hence expanded at most once,
so each `col_indices` slot contributes at most one emitted edge. -/
theorem C10_bfs_acotado (g : Grafo) (s d : Int) (res : List (Int × Int))
    (hinv : invariantes g) (h : bfs g s d = some res) :
    (res.length : Int) ≤ g.num_aristas := by
  obtain ⟨hlen, hchain, hhead, hlast, hcols⟩ := hinv
  have hne : g.row_ptr ≠ [] := by
    intro hnil
    rw [hnil] at hhead
    cases hhead
  have hlp : 1 ≤ g.row_ptr.length := List.length_pos.mpr hne
  have hn0 : 0 ≤ g.num_nodos := by omega
  have htot := suma_total hlen hhead hlast
  have he0 : 0 ≤ g.num_aristas := by
    rw [← htot]
    refine Finset.sum_nonneg fun j hj => ?_
    have hjr := Finset.mem_range.mp hj
    exact gradoD_nonneg hchain (by omega)
  unfold bfs at h
  split at h
  · cases h
    simpa using he0
  · next hslt =>
    push_neg at hslt
    obtain ⟨vis1, hset, hloop⟩ := Option.bind_eq_some.mp h
    obtain ⟨hs0, hslen, rfl⟩ := setI_some hset
    rw [List.length_replicate] at hslen
    have hvis : ∀ x ∈ (List.replicate g.num_nodos.toNat (-1 : Int)).set s.toNat 0,
        (-1 : Int) ≤ x := by
      intro x hx
      rcases List.mem_or_eq_of_mem_set hx with hx' | rfl
      · rw [List.eq_of_mem_replicate hx']
      · omega
    have hq : ∀ w ∈ [s], 0 ≤ w ∧ w < g.num_nodos := by
      intro w hw
      rw [List.mem_singleton.mp hw]
      exact ⟨hs0, hslt⟩
    have hb := bfsCiclo_spec g d hlen hchain hcols (g.num_nodos.toNat + 1) [s]
      _ [] res hloop (by simp; omega) hvis hq
    have hSs : sumaGrados g [s] = gradoD g s.toNat := by
      unfold sumaGrados
      simp
    have hU : sumaNoVisitados g
        ((List.replicate g.num_nodos.toNat (-1 : Int)).set s.toNat 0)
        ≤ ∑ j in (Finset.range g.num_nodos.toNat).erase s.toNat, gradoD g j := by
      unfold sumaNoVisitados
      refine Finset.sum_le_sum_of_subset_of_nonneg ?_ ?_
      · intro j hj
        obtain ⟨hjr, hjv⟩ := Finset.mem_filter.mp hj
        rw [List.length_set, List.length_replicate] at hjr
        rw [Finset.mem_range] at hjr
        refine Finset.mem_erase.mpr ⟨?_, Finset.mem_range.mpr hjr⟩
        rintro rfl
        rw [List.getD, List.get?_eq_getElem?,
          List.getElem?_set_self (by rw [List.length_replicate]; exact hslen)] at hjv
        exact absurd hjv (by decide)
      · intro j hjm hns
        have hjr := Finset.mem_range.mp (Finset.mem_of_mem_erase hjm)
        exact gradoD_nonneg hchain (by omega)
    have hadd := Finset.add_sum_erase (Finset.range g.num_nodos.toNat)
      (fun j => gradoD g j) (Finset.mem_range.mpr hslen)
    simp only at hadd
    rw [hSs] at hb
    simp only [List.length_nil, Nat.cast_zero] at hb
    omega

/-- C10, witness at the graph loaded from `0 1\n` with `bfs(0, 9)`. -/
theorem C10_bfs_acotado_testigo :
    invariantes ⟨2, 1, [0, 1, 1], [1]⟩ ∧
    bfs ⟨2, 1, [0, 1, 1], [1]⟩ 0 9 = some [(0, 1)] ∧
    (([((0 : Int), (1 : Int))] : List (Int × Int)).length : Int) ≤ 1 :=
  ⟨by decide, rfl,
    C10_bfs_acotado ⟨2, 1, [0, 1, 1], [1]⟩ 0 9 [(0, 1)] (by decide) rfl⟩
